import Mathlib

/-! Shallow embedding of the password-generator core of `src/script.js`:
the character sets, the rejection-sampling secure random source, the pool
builder, the Fisher–Yates shuffle and the password composer, together with
theorems checking the documented properties.  Randomness is modelled as a
stream of raw 32-bit words (the successive `crypto.getRandomValues` outputs)
with an explicit read position; the unbounded rejection loop is modelled
with explicit fuel. -/

namespace PasswordGen

/-- `CHARSETS.upper` from `script.js`. -/
def CHARSETS_upper : String := "ABCDEFGHIJKLMNOPQRSTUVWXYZ"

/-- `CHARSETS.lower` from `script.js`. -/
def CHARSETS_lower : String := "abcdefghijklmnopqrstuvwxyz"

/-- `CHARSETS.numbers` from `script.js`. -/
def CHARSETS_numbers : String := "0123456789"

/-- `CHARSETS.symbols` from `script.js` (the two braces are written as
character escapes). -/
def CHARSETS_symbols : String := "!@#$%^&*()-_=+[]\x7b\x7d;:,.<>?/|~"

/-- The option flags read from the four checkboxes (`getSelectedOptions`). -/
structure Options where
  upper : Bool
  lower : Bool
  numbers : Bool
  symbols : Bool

/-- `buildPools` from `script.js`: one pool per enabled class, pushed in the
fixed source order upper, lower, numbers, symbols. -/
def buildPools (o : Options) : List String :=
  (if o.upper then [CHARSETS_upper] else []) ++
  (if o.lower then [CHARSETS_lower] else []) ++
  (if o.numbers then [CHARSETS_numbers] else []) ++
  (if o.symbols then [CHARSETS_symbols] else [])

/-- The state of the random source: an infinite stream of raw draws from
`crypto.getRandomValues` and the index of the next unread draw.  Each raw
draw is reduced mod 2^32 = 4294967296, the range of a `Uint32Array` entry. -/
structure RandState where
  stream : Nat → Nat
  pos : Nat

/-- The 32-bit word produced by the next `crypto.getRandomValues` call. -/
def RandState.draw (st : RandState) : Nat := st.stream st.pos % 4294967296

/-- Advance past one consumed draw. -/
def RandState.next (st : RandState) : RandState := ⟨st.stream, st.pos + 1⟩

/-- `uint32Max = 0xffffffff` from `secureRandomInt`. -/
def uint32Max : Nat := 0xffffffff

/-- `limit = uint32Max - (uint32Max % maxExclusive)` from `secureRandomInt`. -/
def limitFor (m : Nat) : Nat := uint32Max - uint32Max % m

/-- Result of a run of (part of) the generator: a value together with the
advanced random state, a thrown JS exception, or fuel exhaustion (modelling
a rejection loop that never accepts). -/
inductive RandResult (α : Type) where
  | ok (a : α) (st : RandState)
  | thrown (msg : String)
  | outOfFuel

/-- The caller-visible outcome of a run: the returned value, if any. -/
def RandResult.valueOf {α : Type} : RandResult α → Option α
  | .ok a _ => some a
  | _ => none

/-- The `while (true)` rejection loop of `secureRandomInt`, with fuel. -/
def rejectLoop (m : Nat) : Nat → RandState → RandResult Nat
  | 0, _ => .outOfFuel
  | fuel + 1, st =>
    if st.draw < limitFor m then .ok (st.draw % m) st.next
    else rejectLoop m fuel st.next

/-- `secureRandomInt` from `script.js`, on the path where `window.crypto`
is available: throw on a non-positive bound, otherwise rejection-sample. -/
def secureRandomInt (fuel m : Nat) (st : RandState) : RandResult Nat :=
  if m = 0 then .thrown "maxExclusive must be a positive integer"
  else rejectLoop m fuel st

/-- `secureRandomInt` from `script.js` including its `window.crypto`
capability check: when no secure generator is available it falls back to
`Math.floor(Math.random() * maxExclusive)`, consuming no stream draws.  The
`Math.random()` output is modelled as a rational in `[0, 1)`.  The fallback
returns through the very same constructor as the secure path: the result
carries no capability flag or other mark. -/
def secureRandomIntWithFallback (cryptoAvailable : Bool) (mathRandom : ℚ)
    (fuel m : Nat) (st : RandState) : RandResult Nat :=
  if m = 0 then .thrown "maxExclusive must be a positive integer"
  else if cryptoAvailable then rejectLoop m fuel st
  else .ok (Int.toNat (Rat.floor (mathRandom * (m : ℚ)))) st

/-- `pickOne` from `script.js`: `str[secureRandomInt(str.length)]`.  The
index returned by `secureRandomInt` is always in range, so the `getD`
default is never used. -/
def pickOne (fuel : Nat) (str : String) (st : RandState) : RandResult Char :=
  match secureRandomInt fuel str.length st with
  | .ok n st' => .ok (str.data.getD n ' ') st'
  | .thrown msg => .thrown msg
  | .outOfFuel => .outOfFuel

/-- One JS array swap `[a[i], a[j]] = [a[j], a[i]]` on a list. -/
def listSwap (l : List Char) (i j : Nat) : List Char :=
  (l.set i (l.getD j ' ')).set j (l.getD i ' ')

/-- The loop of `shuffleInPlace`, indexed by the loop counter `i`
(counting down, the loop body running for `i = n - 1, ..., 1`). -/
def shuffleFrom (fuel : Nat) : Nat → RandState → List Char → RandResult (List Char)
  | 0, st, arr => .ok arr st
  | k + 1, st, arr =>
    match secureRandomInt fuel (k + 2) st with
    | .ok j st' => shuffleFrom fuel k st' (listSwap arr (k + 1) j)
    | .thrown msg => .thrown msg
    | .outOfFuel => .outOfFuel

/-- `shuffleInPlace` from `script.js`: Fisher–Yates with secure indices,
`i` running from `array.length - 1` down to `1`. -/
def shuffleInPlace (fuel : Nat) (arr : List Char) (st : RandState) :
    RandResult (List Char) :=
  shuffleFrom fuel (arr.length - 1) st arr

/-- `pools.map((pool) => pickOne(pool))` with left-to-right evaluation. -/
def pickAll (fuel : Nat) : List String → RandState → RandResult (List Char)
  | [], st => .ok [] st
  | p :: rest, st =>
    match pickOne fuel p st with
    | .ok c st' =>
      match pickAll fuel rest st' with
      | .ok cs st'' => .ok (c :: cs) st''
      | .thrown msg => .thrown msg
      | .outOfFuel => .outOfFuel
    | .thrown msg => .thrown msg
    | .outOfFuel => .outOfFuel

/-- The `while (chars.length < length)` fill loop of `generatePassword`,
indexed by the number of characters still missing. -/
def fillCount (fuel : Nat) (combined : String) :
    Nat → RandState → List Char → RandResult (List Char)
  | 0, st, chars => .ok chars st
  | n + 1, st, chars =>
    match pickOne fuel combined st with
    | .ok c st' => fillCount fuel combined n st' (chars ++ [c])
    | .thrown msg => .thrown msg
    | .outOfFuel => .outOfFuel

/-- The `{ password, error }` record returned by `generatePassword`. -/
structure GenResult where
  password : String
  error : String

/-- `generatePassword` from `script.js`. -/
def generatePassword (fuel len : Nat) (o : Options) (st : RandState) :
    RandResult GenResult :=
  let pools := buildPools o
  if pools.length = 0 then
    .ok ⟨"", "Select at least one character option."⟩ st
  else if len < pools.length then
    .ok ⟨"", "Length must be at least " ++ toString pools.length ++
      " to include each selected type."⟩ st
  else
    match pickAll fuel pools st with
    | .ok chars st1 =>
      let combinedPool := String.join pools
      if combinedPool = "" then
        .ok ⟨"", "No characters available with current options."⟩ st1
      else
        match fillCount fuel combinedPool (len - chars.length) st1 chars with
        | .ok chars2 st2 =>
          match shuffleInPlace fuel chars2 st2 with
          | .ok chars3 st3 => .ok ⟨⟨chars3⟩, ""⟩ st3
          | .thrown msg => .thrown msg
          | .outOfFuel => .outOfFuel
        | .thrown msg => .thrown msg
        | .outOfFuel => .outOfFuel
    | .thrown msg => .thrown msg
    | .outOfFuel => .outOfFuel

/-- The limit named by the specification and by the claim about the random
source: `2^32 - (2^32 mod maxExclusive)`. -/
def specLimit (m : Nat) : Nat := 4294967296 - 4294967296 % m

/-- The rejection loop exactly as the specification words it, with the
limit `specLimit` instead of the one the code computes. -/
def specRejectLoop (m : Nat) : Nat → RandState → RandResult Nat
  | 0, _ => .outOfFuel
  | fuel + 1, st =>
    if st.draw < specLimit m then .ok (st.draw % m) st.next
    else specRejectLoop m fuel st.next

/-- `uniformInt` as the specification describes it: reject a draw exactly
when it is `≥ 2^32 - (2^32 mod maxExclusive)`. -/
def uniformIntSpec (fuel m : Nat) (st : RandState) : RandResult Nat :=
  if m = 0 then .thrown "maxExclusive must be a positive integer"
  else specRejectLoop m fuel st

/-- One Fisher–Yates step at index `i`, as the specification words it:
draw `j = uniformInt(i + 1)` and swap positions `i` and `j`. -/
def fisherYatesStep (fuel : Nat) (acc : RandResult (List Char)) (i : Nat) :
    RandResult (List Char) :=
  match acc with
  | .ok arr st =>
    match secureRandomInt fuel (i + 1) st with
    | .ok j st' => .ok (listSwap arr i j) st'
    | .thrown msg => .thrown msg
    | .outOfFuel => .outOfFuel
  | e => e

/-- The shuffle as the specification words it: iterate the index `i` over
`length - 1, ..., 1` in that order, at each step drawing `j = uniformInt(i+1)`
and swapping positions `i` and `j`. -/
def fisherYatesSpec (fuel : Nat) (arr : List Char) (st : RandState) :
    RandResult (List Char) :=
  (List.range' 1 (arr.length - 1)).reverse.foldl (fisherYatesStep fuel) (.ok arr st)

/-- Streams all of whose raw draws stay `bound` below 2^32: every rejection
loop whose modulus is at most `bound` accepts its first draw.  Such streams
model a random source that keeps delivering; termination of the JS
`while (true)` loop holds with probability 1 but not for arbitrary
adversarial streams. -/
def Good (bound : Nat) (f : Nat → Nat) : Prop :=
  ∀ i, f i % 4294967296 + bound < 4294967296

/-- The all-zero draw stream, used by concrete witness runs. -/
def zeroStream : Nat → Nat := fun _ => 0

/-- A draw stream whose first word is `0xfffffffe` (rejected by the code for
`maxExclusive = 2`, yet strictly below the limit the claim states) and whose
later words are all 1. -/
def cexStream : Nat → Nat := fun i => if i = 0 then 0xfffffffe else 1

/-! ### Lemmas about the random source -/

/-- A successful `rejectLoop` run returns `value % m` for the first accepted
draw, rejects every earlier draw, consumes exactly the draws up to and
including the accepted one, and returns a value below `m`. -/
theorem rejectLoop_ok {m : Nat} (hm : 0 < m) :
    ∀ (fuel : Nat) (st : RandState) (v : Nat) (st' : RandState),
      rejectLoop m fuel st = .ok v st' →
      v < m ∧ st'.stream = st.stream ∧
        ∃ k, st'.pos = st.pos + k + 1 ∧
          (∀ t, t < k → ¬ st.stream (st.pos + t) % 4294967296 < limitFor m) ∧
          st.stream (st.pos + k) % 4294967296 < limitFor m ∧
          v = st.stream (st.pos + k) % 4294967296 % m := by
  intro fuel
  induction fuel with
  | zero => intro st v st' h; exact absurd h (by simp [rejectLoop])
  | succ fl ih =>
    intro st v st' h
    rw [rejectLoop] at h
    by_cases hd : st.draw < limitFor m
    · rw [if_pos hd] at h
      obtain ⟨hv, hst⟩ : st.draw % m = v ∧ st.next = st' := by
        cases h; exact ⟨rfl, rfl⟩
      subst hv; subst hst
      refine ⟨Nat.mod_lt _ hm, rfl, 0, rfl, by omega, ?_, ?_⟩
      · simpa [RandState.draw] using hd
      · simp [RandState.draw]
    · rw [if_neg hd] at h
      obtain ⟨hv, hstr, k, hpos, hrej, hacc, hval⟩ := ih st.next v st' h
      simp only [RandState.next] at hstr hpos hrej hacc hval
      refine ⟨hv, hstr, k + 1, by omega, ?_, ?_, ?_⟩
      · intro t ht
        rcases Nat.eq_zero_or_pos t with rfl | htpos
        · simpa [RandState.draw] using hd
        · have := hrej (t - 1) (by omega)
          simpa [show st.pos + 1 + (t - 1) = st.pos + t by omega] using this
      · simpa [show st.pos + 1 + k = st.pos + (k + 1) by omega] using hacc
      · simpa [show st.pos + 1 + k = st.pos + (k + 1) by omega] using hval

/-- `rejectLoop` never throws. -/
theorem rejectLoop_ne_thrown {m : Nat} :
    ∀ (fuel : Nat) (st : RandState) (msg : String),
      rejectLoop m fuel st ≠ .thrown msg := by
  intro fuel
  induction fuel with
  | zero => intro st msg h; simp [rejectLoop] at h
  | succ fl ih =>
    intro st msg h
    rw [rejectLoop] at h
    by_cases hd : st.draw < limitFor m
    · rw [if_pos hd] at h; cases h
    · rw [if_neg hd] at h; exact ih st.next msg h

/-- A successful `secureRandomInt` run forces a positive modulus and returns
an in-range value without touching the stream function. -/
theorem secureRandomInt_ok {fuel m : Nat} {st : RandState} {v : Nat} {st' : RandState}
    (h : secureRandomInt fuel m st = .ok v st') :
    0 < m ∧ v < m ∧ st'.stream = st.stream := by
  rcases Nat.eq_zero_or_pos m with rfl | hm
  · simp [secureRandomInt] at h
  · rw [secureRandomInt, if_neg (by omega)] at h
    obtain ⟨hv, hstr, _⟩ := rejectLoop_ok hm fuel st v st' h
    exact ⟨hm, hv, hstr⟩

/-- `secureRandomInt` only throws on a non-positive bound. -/
theorem secureRandomInt_ne_thrown {fuel m : Nat} {st : RandState} {msg : String}
    (hm : m ≠ 0) : secureRandomInt fuel m st ≠ .thrown msg := by
  rw [secureRandomInt, if_neg hm]
  exact rejectLoop_ne_thrown fuel st msg

/-! ### Lemmas about `pickOne` and `listSwap` -/

/-- A character returned by `pickOne` belongs to the string sampled from. -/
theorem pickOne_ok_mem {fuel : Nat} {s : String} {st : RandState} {c : Char}
    {st' : RandState} (h : pickOne fuel s st = .ok c st') : c ∈ s.data := by
  rw [pickOne] at h
  cases hsr : secureRandomInt fuel s.length st with
  | ok n st'' =>
    rw [hsr] at h
    obtain ⟨-, hn, -⟩ := secureRandomInt_ok hsr
    have hn' : n < s.data.length := hn
    obtain ⟨hc, -⟩ : s.data.getD n ' ' = c ∧ st'' = st' := by cases h; exact ⟨rfl, rfl⟩
    rw [← hc, List.getD_eq_getElem _ _ hn']
    exact List.getElem_mem hn'
  | thrown msg => rw [hsr] at h; cases h
  | outOfFuel => rw [hsr] at h; cases h

/-- `pickOne` preserves the stream function. -/
theorem pickOne_ok_stream {fuel : Nat} {s : String} {st : RandState} {c : Char}
    {st' : RandState} (h : pickOne fuel s st = .ok c st') : st'.stream = st.stream := by
  rw [pickOne] at h
  cases hsr : secureRandomInt fuel s.length st with
  | ok n st'' =>
    rw [hsr] at h
    obtain ⟨-, -, hstr⟩ := secureRandomInt_ok hsr
    obtain ⟨-, hst⟩ : s.data.getD n ' ' = c ∧ st'' = st' := by cases h; exact ⟨rfl, rfl⟩
    rw [← hst]; exact hstr
  | thrown msg => rw [hsr] at h; cases h
  | outOfFuel => rw [hsr] at h; cases h

/-- `pickOne` on a non-empty string never throws. -/
theorem pickOne_ne_thrown {fuel : Nat} {s : String} {st : RandState} {msg : String}
    (hs : s.length ≠ 0) : pickOne fuel s st ≠ .thrown msg := by
  rw [pickOne]
  cases hsr : secureRandomInt fuel s.length st with
  | ok n st'' => simp
  | thrown msg' => exact absurd hsr (secureRandomInt_ne_thrown hs)
  | outOfFuel => simp

/-- Swapping preserves the length. -/
theorem listSwap_length (l : List Char) (i j : Nat) :
    (listSwap l i j).length = l.length := by
  simp [listSwap]

/-- Every element of a swap of `l` at in-range positions is an element of `l`. -/
theorem mem_of_mem_listSwap {l : List Char} {i j : Nat} {x : Char}
    (hi : i < l.length) (hj : j < l.length) (hx : x ∈ listSwap l i j) : x ∈ l := by
  rw [listSwap] at hx
  rcases List.mem_or_eq_of_mem_set hx with hx' | rfl
  · rcases List.mem_or_eq_of_mem_set hx' with hx'' | rfl
    · exact hx''
    · rw [List.getD_eq_getElem _ _ hj]; exact List.getElem_mem hj
  · rw [List.getD_eq_getElem _ _ hi]; exact List.getElem_mem hi

/-- Every element of `l` survives a swap at in-range positions. -/
theorem mem_listSwap_of_mem {l : List Char} {i j : Nat} {x : Char}
    (hi : i < l.length) (hj : j < l.length) (hx : x ∈ l) : x ∈ listSwap l i j := by
  obtain ⟨k, hk, hres⟩ := List.mem_iff_getElem.mp hx
  by_cases hki : k = i
  · subst hki
    refine List.mem_iff_getElem?.mpr ⟨j, ?_⟩
    simp only [listSwap, List.getElem?_set, List.length_set]
    simp [hj, List.getD_eq_getElem _ _ hk, List.getElem?_eq_getElem hk, hres]
  · by_cases hkj : k = j
    · subst hkj
      refine List.mem_iff_getElem?.mpr ⟨i, ?_⟩
      simp only [listSwap, List.getElem?_set, List.length_set]
      simp [hi, hki, List.getD_eq_getElem _ _ hk, List.getElem?_eq_getElem hk, hres]
    · refine List.mem_iff_getElem?.mpr ⟨k, ?_⟩
      simp only [listSwap, List.getElem?_set, List.length_set]
      simp [Ne.symm hki, Ne.symm hkj, List.getElem?_eq_getElem hk, hres]

/-! ### Lemmas about the pools -/

/-- Every pool produced by `buildPools` is one of the four charsets. -/
theorem mem_buildPools {o : Options} {p : String} (hp : p ∈ buildPools o) :
    p = CHARSETS_upper ∨ p = CHARSETS_lower ∨ p = CHARSETS_numbers ∨
      p = CHARSETS_symbols := by
  rcases o with ⟨u, l, n, s⟩
  cases u <;> cases l <;> cases n <;> cases s <;> simp [buildPools] at hp <;> tauto

/-- Every pool is non-empty and at most 90 characters long. -/
theorem buildPools_pool_length {o : Options} {p : String} (hp : p ∈ buildPools o) :
    0 < p.length ∧ p.length ≤ 90 := by
  rcases mem_buildPools hp with rfl | rfl | rfl | rfl <;> decide

/-- The combined pool: either no class is selected, or the concatenation of
the selected pools is a non-empty string of at most 90 characters. -/
theorem buildPools_combined (o : Options) :
    buildPools o = [] ∨
      (String.join (buildPools o) ≠ "" ∧
        0 < (String.join (buildPools o)).length ∧
        (String.join (buildPools o)).length ≤ 90) := by
  rcases o with ⟨u, l, n, s⟩
  cases u <;> cases l <;> cases n <;> cases s <;> decide

/-- `String.join` concatenates the character data of its members. -/
theorem data_foldl_append :
    ∀ (l : List String) (s : String),
      (l.foldl (fun r t => r ++ t) s).data = s.data ++ (l.map String.data).flatten := by
  intro l
  induction l with
  | nil => intro s; simp
  | cons p rest ih =>
    intro s
    simp only [List.foldl_cons, ih (s ++ p), List.map_cons, List.flatten_cons]
    simp

/-- Membership in the data of a joined pool list. -/
theorem mem_data_join {pools : List String} {p : String} {c : Char}
    (hp : p ∈ pools) (hc : c ∈ p.data) : c ∈ (String.join pools).data := by
  have : (String.join pools).data = (pools.map String.data).flatten := by
    rw [String.join, data_foldl_append]; rfl
  rw [this]
  exact List.mem_flatten.mpr ⟨p.data, List.mem_map_of_mem _ hp, hc⟩

/-! ### Lemmas about the composer loops -/

/-- `pickAll` returns one character per pool: lengths agree, every picked
character comes from one of the pools, and every pool contributed one. -/
theorem pickAll_ok {fuel : Nat} :
    ∀ (pools : List String) (st : RandState) (chars : List Char) (st' : RandState),
      pickAll fuel pools st = .ok chars st' →
      chars.length = pools.length ∧
        (∀ c, c ∈ chars → ∃ p, p ∈ pools ∧ c ∈ p.data) ∧
        (∀ p, p ∈ pools → ∃ c, c ∈ chars ∧ c ∈ p.data) := by
  intro pools
  induction pools with
  | nil =>
    intro st chars st' h
    rw [pickAll] at h; cases h
    simp
  | cons p rest ih =>
    intro st chars st' h
    rw [pickAll] at h
    cases h1 : pickOne fuel p st with
    | ok c st1 =>
      simp only [h1] at h
      cases h2 : pickAll fuel rest st1 with
      | ok cs st2 =>
        simp only [h2] at h; cases h
        obtain ⟨hlen, hall, hcov⟩ := ih st1 cs _ h2
        have hc := pickOne_ok_mem h1
        refine ⟨by simp [hlen], ?_, ?_⟩
        · intro c' hc'
          rcases List.mem_cons.mp hc' with rfl | hc'
          · exact ⟨p, List.mem_cons_self p rest, hc⟩
          · obtain ⟨q, hq, hcq⟩ := hall c' hc'
            exact ⟨q, List.mem_cons_of_mem p hq, hcq⟩
        · intro q hq
          rcases List.mem_cons.mp hq with rfl | hq
          · exact ⟨c, List.mem_cons_self c cs, hc⟩
          · obtain ⟨c', hc', hcq⟩ := hcov q hq
            exact ⟨c', List.mem_cons_of_mem c hc', hcq⟩
      | thrown msg => simp only [h2] at h; cases h
      | outOfFuel => simp only [h2] at h; cases h
    | thrown msg => simp only [h1] at h; cases h
    | outOfFuel => simp only [h1] at h; cases h

/-- `pickAll` never throws when every pool is non-empty. -/
theorem pickAll_ne_thrown {fuel : Nat} :
    ∀ (pools : List String) (st : RandState) (msg : String),
      (∀ p, p ∈ pools → p.length ≠ 0) → pickAll fuel pools st ≠ .thrown msg := by
  intro pools
  induction pools with
  | nil => intro st msg _ h; rw [pickAll] at h; cases h
  | cons p rest ih =>
    intro st msg hp h
    rw [pickAll] at h
    cases h1 : pickOne fuel p st with
    | ok c st1 =>
      simp only [h1] at h
      cases h2 : pickAll fuel rest st1 with
      | ok cs st2 => simp only [h2] at h; cases h
      | thrown m2 =>
        simp only [h2] at h; cases h
        exact ih st1 _ (fun q hq => hp q (List.mem_cons_of_mem p hq)) h2
      | outOfFuel => simp only [h2] at h; cases h
    | thrown m1 => exact absurd h1 (pickOne_ne_thrown (hp p (List.mem_cons_self p rest)))
    | outOfFuel => simp only [h1] at h; cases h

/-- The fill loop appends exactly the missing count, drawing each new
character from the combined pool and keeping every buffer member. -/
theorem fillCount_ok {fuel : Nat} {combined : String} :
    ∀ (n : Nat) (st : RandState) (chars out : List Char) (st' : RandState),
      fillCount fuel combined n st chars = .ok out st' →
      out.length = chars.length + n ∧
        (∀ c, c ∈ out → c ∈ chars ∨ c ∈ combined.data) ∧
        (∀ c, c ∈ chars → c ∈ out) := by
  intro n
  induction n with
  | zero =>
    intro st chars out st' h
    rw [fillCount] at h; cases h
    exact ⟨rfl, fun c hc => Or.inl hc, fun c hc => hc⟩
  | succ n ih =>
    intro st chars out st' h
    rw [fillCount] at h
    cases h1 : pickOne fuel combined st with
    | ok c st1 =>
      simp only [h1] at h
      obtain ⟨hlen, hall, hkeep⟩ := ih st1 (chars ++ [c]) out st' h
      have hc := pickOne_ok_mem h1
      refine ⟨by simp at hlen; omega, ?_, ?_⟩
      · intro c' hc'
        rcases hall c' hc' with hmem | hmem
        · rcases List.mem_append.mp hmem with hmem | hmem
          · exact Or.inl hmem
          · simp at hmem; subst hmem; exact Or.inr hc
        · exact Or.inr hmem
      · intro c' hc'
        exact hkeep c' (List.mem_append_left _ hc')
    | thrown msg => simp only [h1] at h; cases h
    | outOfFuel => simp only [h1] at h; cases h

/-- The fill loop never throws when the combined pool is non-empty. -/
theorem fillCount_ne_thrown {fuel : Nat} {combined : String}
    (hc : combined.length ≠ 0) :
    ∀ (n : Nat) (st : RandState) (chars : List Char) (msg : String),
      fillCount fuel combined n st chars ≠ .thrown msg := by
  intro n
  induction n with
  | zero => intro st chars msg h; rw [fillCount] at h; cases h
  | succ n ih =>
    intro st chars msg h
    rw [fillCount] at h
    cases h1 : pickOne fuel combined st with
    | ok c st1 => simp only [h1] at h; exact ih st1 (chars ++ [c]) msg h
    | thrown m1 => exact absurd h1 (pickOne_ne_thrown hc)
    | outOfFuel => simp only [h1] at h; cases h

/-- A successful shuffle run preserves the length and the set of elements
of the buffer. -/
theorem shuffleFrom_ok {fuel : Nat} :
    ∀ (i : Nat) (st : RandState) (arr out : List Char) (st' : RandState),
      i < arr.length →
      shuffleFrom fuel i st arr = .ok out st' →
      out.length = arr.length ∧
        (∀ x, x ∈ out → x ∈ arr) ∧ (∀ x, x ∈ arr → x ∈ out) := by
  intro i
  induction i with
  | zero =>
    intro st arr out st' hi h
    rw [shuffleFrom] at h; cases h
    exact ⟨rfl, fun x hx => hx, fun x hx => hx⟩
  | succ k ih =>
    intro st arr out st' hi h
    rw [shuffleFrom] at h
    cases h1 : secureRandomInt fuel (k + 2) st with
    | ok j st1 =>
      simp only [h1] at h
      obtain ⟨-, hj, -⟩ := secureRandomInt_ok h1
      have hk1 : k + 1 < arr.length := hi
      have hjlt : j < arr.length := by omega
      have hswaplen : (listSwap arr (k + 1) j).length = arr.length :=
        listSwap_length _ _ _
      obtain ⟨hlen, hin, hout⟩ := ih st1 (listSwap arr (k + 1) j) out st' (by omega) h
      refine ⟨by omega, ?_, ?_⟩
      · intro x hx
        exact mem_of_mem_listSwap hk1 hjlt (hin x hx)
      · intro x hx
        exact hout x (mem_listSwap_of_mem hk1 hjlt hx)
    | thrown msg => simp only [h1] at h; cases h
    | outOfFuel => simp only [h1] at h; cases h

/-- The shuffle never throws: every drawn bound `i + 1` is at least 2. -/
theorem shuffleFrom_ne_thrown {fuel : Nat} :
    ∀ (i : Nat) (st : RandState) (arr : List Char) (msg : String),
      shuffleFrom fuel i st arr ≠ .thrown msg := by
  intro i
  induction i with
  | zero => intro st arr msg h; rw [shuffleFrom] at h; cases h
  | succ k ih =>
    intro st arr msg h
    rw [shuffleFrom] at h
    cases h1 : secureRandomInt fuel (k + 2) st with
    | ok j st1 => simp only [h1] at h; exact ih st1 _ msg h
    | thrown msg' => exact absurd h1 (secureRandomInt_ne_thrown (by omega))
    | outOfFuel => simp only [h1] at h; cases h

/-! ### Success lemmas over well-behaved streams -/

/-- The code's limit is at least `2^32 - bound` for any modulus up to
`bound`. -/
theorem limitFor_ge {m bound : Nat} (hm : 0 < m) (hmb : m ≤ bound) :
    4294967296 - bound ≤ limitFor m := by
  have h := Nat.mod_lt uint32Max (y := m) hm
  simp only [uint32Max] at h
  simp only [limitFor, uint32Max]
  omega

/-- Under `Good bound`, a rejection-sampling call with modulus `m ≤ bound`
accepts its very first draw. -/
theorem secureRandomInt_good {bound : Nat} {f : Nat → Nat} (hg : Good bound f)
    {fuel m : Nat} (hf : 1 ≤ fuel) (hm : 0 < m) (hmb : m ≤ bound) (pos : Nat) :
    secureRandomInt fuel m ⟨f, pos⟩ =
      .ok (f pos % 4294967296 % m) ⟨f, pos + 1⟩ := by
  have hlt : (⟨f, pos⟩ : RandState).draw < limitFor m := by
    have h1 := hg pos
    have h2 := limitFor_ge hm hmb
    simp only [RandState.draw]
    omega
  cases fuel with
  | zero => omega
  | succ fl =>
    rw [secureRandomInt, if_neg (by omega), rejectLoop, if_pos hlt]
    rfl

/-- Under `Good bound`, `pickOne` succeeds in one draw. -/
theorem pickOne_good {bound : Nat} {f : Nat → Nat} (hg : Good bound f)
    {fuel : Nat} {s : String} (hf : 1 ≤ fuel) (hs : 0 < s.length)
    (hsb : s.length ≤ bound) (pos : Nat) :
    pickOne fuel s ⟨f, pos⟩ =
      .ok (s.data.getD (f pos % 4294967296 % s.length) ' ') ⟨f, pos + 1⟩ := by
  rw [pickOne, secureRandomInt_good hg hf hs hsb pos]

/-- Under `Good bound`, `pickAll` succeeds, consuming one draw per pool. -/
theorem pickAll_good {bound : Nat} {f : Nat → Nat} (hg : Good bound f)
    {fuel : Nat} (hf : 1 ≤ fuel) :
    ∀ (pools : List String) (pos : Nat),
      (∀ p, p ∈ pools → 0 < p.length ∧ p.length ≤ bound) →
      ∃ chars, pickAll fuel pools ⟨f, pos⟩ = .ok chars ⟨f, pos + pools.length⟩ ∧
        chars.length = pools.length := by
  intro pools
  induction pools with
  | nil => intro pos _; exact ⟨[], by simp [pickAll], rfl⟩
  | cons p rest ih =>
    intro pos hp
    obtain ⟨hp1, hp2⟩ := hp p (List.mem_cons_self p rest)
    obtain ⟨cs, hcs, hlen⟩ := ih (pos + 1) (fun q hq => hp q (List.mem_cons_of_mem p hq))
    refine ⟨p.data.getD (f pos % 4294967296 % p.length) ' ' :: cs, ?_, by simp [hlen]⟩
    have hpos : pos + 1 + rest.length = pos + (p :: rest).length := by simp; omega
    simp only [pickAll, pickOne_good hg hf hp1 hp2 pos, hcs, hpos]

/-- Under `Good bound`, the fill loop succeeds, consuming one draw per
missing character. -/
theorem fillCount_good {bound : Nat} {f : Nat → Nat} (hg : Good bound f)
    {fuel : Nat} {combined : String} (hf : 1 ≤ fuel) (hc1 : 0 < combined.length)
    (hc2 : combined.length ≤ bound) :
    ∀ (n : Nat) (pos : Nat) (chars : List Char),
      ∃ out, fillCount fuel combined n ⟨f, pos⟩ chars = .ok out ⟨f, pos + n⟩ ∧
        out.length = chars.length + n := by
  intro n
  induction n with
  | zero => intro pos chars; exact ⟨chars, by simp [fillCount], rfl⟩
  | succ n ih =>
    intro pos chars
    obtain ⟨out, hout, hlen⟩ :=
      ih (pos + 1) (chars ++ [combined.data.getD (f pos % 4294967296 % combined.length) ' '])
    refine ⟨out, ?_, by simp at hlen; omega⟩
    have hpos : pos + 1 + n = pos + (n + 1) := by omega
    simp only [fillCount, pickOne_good hg hf hc1 hc2 pos, hout, hpos]

/-- Under `Good bound`, the whole shuffle succeeds, consuming one draw per
loop step. -/
theorem shuffleFrom_good {bound : Nat} {f : Nat → Nat} (hg : Good bound f)
    {fuel : Nat} (hf : 1 ≤ fuel) :
    ∀ (i : Nat) (pos : Nat) (arr : List Char), i + 1 ≤ bound →
      ∃ out, shuffleFrom fuel i ⟨f, pos⟩ arr = .ok out ⟨f, pos + i⟩ ∧
        out.length = arr.length := by
  intro i
  induction i with
  | zero => intro pos arr _; exact ⟨arr, by simp [shuffleFrom], rfl⟩
  | succ k ih =>
    intro pos arr hib
    obtain ⟨out, hout, hlen⟩ :=
      ih (pos + 1) (listSwap arr (k + 1) (f pos % 4294967296 % (k + 2))) (by omega)
    refine ⟨out, ?_, by rw [hlen, listSwap_length]⟩
    have hpos : pos + 1 + k = pos + (k + 1) := by omega
    simp only [shuffleFrom,
      @secureRandomInt_good bound f hg fuel (k + 2) hf (by omega) (by omega) pos,
      hout, hpos]

/-! ### Fisher–Yates refinement helpers -/

/-- Folding the Fisher–Yates step over any index list leaves a thrown
result unchanged. -/
theorem foldl_fisherYatesStep_thrown {fuel : Nat} (L : List Nat) (msg : String) :
    L.foldl (fisherYatesStep fuel) (.thrown msg) = .thrown msg := by
  induction L with
  | nil => rfl
  | cons a L ih => simpa [fisherYatesStep] using ih

/-- Folding the Fisher–Yates step over any index list leaves an
out-of-fuel result unchanged. -/
theorem foldl_fisherYatesStep_outOfFuel {fuel : Nat} (L : List Nat) :
    L.foldl (fisherYatesStep fuel) .outOfFuel = .outOfFuel := by
  induction L with
  | nil => rfl
  | cons a L ih => simpa [fisherYatesStep] using ih

/-- The code's shuffle loop equals the fold of the specification's step
over the indices `i, i - 1, ..., 1`. -/
theorem shuffleFrom_eq_foldl {fuel : Nat} :
    ∀ (i : Nat) (st : RandState) (arr : List Char),
      shuffleFrom fuel i st arr =
        (List.range' 1 i).reverse.foldl (fisherYatesStep fuel) (.ok arr st) := by
  intro i
  induction i with
  | zero => intro st arr; simp [shuffleFrom]
  | succ k ih =>
    intro st arr
    rw [List.range'_concat, List.reverse_append]
    have h1k : 1 + 1 * k = k + 1 := by omega
    rw [show ([1 + 1 * k] : List Nat).reverse = [k + 1] by rw [h1k]; rfl]
    rw [List.cons_append, List.nil_append, List.foldl_cons]
    cases h1 : secureRandomInt fuel (k + 2) st with
    | ok j st' =>
      rw [shuffleFrom]
      simp only [h1, fisherYatesStep]
      exact ih st' (listSwap arr (k + 1) j)
    | thrown msg =>
      rw [shuffleFrom]
      simp only [h1, fisherYatesStep]
      exact (foldl_fisherYatesStep_thrown _ msg).symm
    | outOfFuel =>
      rw [shuffleFrom]
      simp only [h1, fisherYatesStep]
      exact (foldl_fisherYatesStep_outOfFuel _).symm

/-! ### The claims -/

/-- C1 counterexample: the claim computes the rejection limit from `2^32`,
the code computes it from `uint32Max = 2^32 - 1`.  For `maxExclusive = 2`
and a stream starting `0xfffffffe, 1, ...`, the claimed procedure accepts
the first draw and returns `0` after one draw, while the code rejects it
and returns `1` after two draws: different value, different consumption. -/
theorem secureRandomInt_claim_limit_counterexample :
    secureRandomInt 2 2 ⟨cexStream, 0⟩ = .ok 1 ⟨cexStream, 2⟩ ∧
      uniformIntSpec 2 2 ⟨cexStream, 0⟩ = .ok 0 ⟨cexStream, 1⟩ ∧
      (secureRandomInt 2 2 ⟨cexStream, 0⟩).valueOf ≠
        (uniformIntSpec 2 2 ⟨cexStream, 0⟩).valueOf := by
  refine ⟨rfl, rfl, ?_⟩
  intro hcontra
  have h1 : (secureRandomInt 2 2 ⟨cexStream, 0⟩).valueOf = some 1 := rfl
  have h2 : (uniformIntSpec 2 2 ⟨cexStream, 0⟩).valueOf = some 0 := rfl
  rw [h1, h2] at hcontra
  cases hcontra

/-- C1 (amended): for every positive `maxExclusive`, a successful
`secureRandomInt` run returns `value mod maxExclusive` for the first drawn
value below the code's limit `(2^32 - 1) - ((2^32 - 1) mod maxExclusive)`,
discards exactly the earlier draws (all of which were at or above that
limit), and the result lies in `[0, maxExclusive)`. -/
theorem secureRandomInt_rejection_correct (fuel m : Nat) (st : RandState)
    (v : Nat) (st' : RandState) (hm : 0 < m)
    (h : secureRandomInt fuel m st = .ok v st') :
    v < m ∧ st'.stream = st.stream ∧
      ∃ k, st'.pos = st.pos + k + 1 ∧
        (∀ t, t < k → ¬ st.stream (st.pos + t) % 4294967296 < limitFor m) ∧
        st.stream (st.pos + k) % 4294967296 < limitFor m ∧
        v = st.stream (st.pos + k) % 4294967296 % m := by
  rw [secureRandomInt, if_neg (by omega)] at h
  exact rejectLoop_ok hm fuel st v st' h

/-- Witness for the amended C1 theorem at `maxExclusive = 2` on the
concrete stream `0xfffffffe, 1, 1, ...`. -/
theorem secureRandomInt_rejection_correct_witness :
    1 < 2 ∧ cexStream = cexStream ∧
      ∃ k, 2 = 0 + k + 1 ∧
        (∀ t, t < k → ¬ cexStream (0 + t) % 4294967296 < limitFor 2) ∧
        cexStream (0 + k) % 4294967296 < limitFor 2 ∧
        1 = cexStream (0 + k) % 4294967296 % 2 :=
  secureRandomInt_rejection_correct 2 2 ⟨cexStream, 0⟩ 1 ⟨cexStream, 2⟩ (by decide) rfl

/-- C5: validation is checked in order with the first failure winning; the
no-class failure and the too-short failure each return an empty password and
an unchanged random state, the too-short message contains the decimal
minimum required length (the number of selected pools), and the two failure
messages are distinct. -/
theorem generatePassword_validation_order (fuel len : Nat) (o : Options)
    (st : RandState) :
    (buildPools o = [] →
        generatePassword fuel len o st =
          .ok ⟨"", "Select at least one character option."⟩ st) ∧
      (buildPools o ≠ [] → len < (buildPools o).length →
        generatePassword fuel len o st =
            .ok ⟨"", "Length must be at least " ++
              toString (buildPools o).length ++
              " to include each selected type."⟩ st ∧
          (∃ a b, ("Length must be at least " ++
              toString (buildPools o).length ++
              " to include each selected type.").data =
            a ++ (toString (buildPools o).length).data ++ b) ∧
          "Select at least one character option." ≠
            "Length must be at least " ++ toString (buildPools o).length ++
              " to include each selected type.") := by
  constructor
  · intro h0
    simp only [generatePassword]
    rw [if_pos (by simp [h0])]
  · intro h0 hlt
    refine ⟨?_, ?_, ?_⟩
    · simp only [generatePassword]
      rw [if_neg (by simpa using h0), if_pos hlt]
    · exact ⟨("Length must be at least " : String).data,
        (" to include each selected type." : String).data, by simp⟩
    · intro heq
      have hlen2 := congrArg String.length heq
      simp only [String.length_append] at hlen2
      have e1 : ("Select at least one character option." : String).length = 37 := rfl
      have e2 : ("Length must be at least " : String).length = 24 := rfl
      have e3 : (" to include each selected type." : String).length = 31 := rfl
      rw [e1, e2, e3] at hlen2
      omega

/-- Witness for C5: a run with no class selected fails with the no-class
message, and a run with three classes and length 2 fails with the
too-short message citing the minimum 3. -/
theorem generatePassword_validation_order_witness :
    generatePassword 1 10 ⟨false, false, false, false⟩ ⟨zeroStream, 0⟩ =
        .ok ⟨"", "Select at least one character option."⟩ ⟨zeroStream, 0⟩ ∧
      (generatePassword 1 2 ⟨true, true, true, false⟩ ⟨zeroStream, 0⟩ =
          .ok ⟨"", "Length must be at least " ++
            toString (buildPools ⟨true, true, true, false⟩).length ++
            " to include each selected type."⟩ ⟨zeroStream, 0⟩ ∧
        (∃ a b, ("Length must be at least " ++
            toString (buildPools ⟨true, true, true, false⟩).length ++
            " to include each selected type.").data =
          a ++ (toString (buildPools ⟨true, true, true, false⟩).length).data ++ b) ∧
        "Select at least one character option." ≠
          "Length must be at least " ++
            toString (buildPools ⟨true, true, true, false⟩).length ++
            " to include each selected type.") :=
  ⟨(generatePassword_validation_order 1 10 ⟨false, false, false, false⟩
      ⟨zeroStream, 0⟩).1 (by decide),
   (generatePassword_validation_order 1 2 ⟨true, true, true, false⟩
      ⟨zeroStream, 0⟩).2 (by decide) (by decide)⟩

/-- C7: `buildPools` emits the pools as a sublist of the canonical order
upper, lower, numbers, symbols; each charset appears exactly when its flag
is enabled; the empty option set yields the empty list; every emitted pool
is non-empty; and the count equals the number of enabled flags.  It is a
total function of the option set (no failure path). -/
theorem buildPools_canonical (o : Options) :
    List.Sublist (buildPools o)
        [CHARSETS_upper, CHARSETS_lower, CHARSETS_numbers, CHARSETS_symbols] ∧
      (CHARSETS_upper ∈ buildPools o ↔ o.upper = true) ∧
      (CHARSETS_lower ∈ buildPools o ↔ o.lower = true) ∧
      (CHARSETS_numbers ∈ buildPools o ↔ o.numbers = true) ∧
      (CHARSETS_symbols ∈ buildPools o ↔ o.symbols = true) ∧
      buildPools ⟨false, false, false, false⟩ = [] ∧
      (∀ p, p ∈ buildPools o → p ≠ "") ∧
      (buildPools o).length =
        (if o.upper then 1 else 0) + (if o.lower then 1 else 0) +
          (if o.numbers then 1 else 0) + (if o.symbols then 1 else 0) := by
  rcases o with ⟨u, l, n, s⟩
  cases u <;> cases l <;> cases n <;> cases s <;> decide

/-- Witness for C7 at a concrete option set: the upper pool is one of the
emitted pools and is non-empty. -/
theorem buildPools_canonical_witness : CHARSETS_upper ≠ "" :=
  (buildPools_canonical ⟨true, true, true, true⟩).2.2.2.2.2.2.1
    CHARSETS_upper (by decide)

/-- C8: an invalid request fails with one fixed message, identically for
every fuel value and every random stream, and the returned random state is
the input state: no randomness is consumed before validation completes. -/
theorem generatePassword_validation_deterministic (len : Nat) (o : Options)
    (h : buildPools o = [] ∨ len < (buildPools o).length) :
    ∃ msg, ∀ (fuel : Nat) (st : RandState),
      generatePassword fuel len o st = .ok ⟨"", msg⟩ st := by
  by_cases h0 : (buildPools o).length = 0
  · exact ⟨"Select at least one character option.", fun fuel st => by
      simp only [generatePassword]; rw [if_pos h0]⟩
  · have hlt : len < (buildPools o).length := by
      rcases h with h | h
      · exact absurd (by simp [h]) h0
      · exact h
    exact ⟨"Length must be at least " ++ toString (buildPools o).length ++
      " to include each selected type.", fun fuel st => by
      simp only [generatePassword]; rw [if_neg h0, if_pos hlt]⟩

/-- Witness for C8 at the empty option set. -/
theorem generatePassword_validation_deterministic_witness :
    ∃ msg, ∀ (fuel : Nat) (st : RandState),
      generatePassword fuel 10 ⟨false, false, false, false⟩ st = .ok ⟨"", msg⟩ st :=
  generatePassword_validation_deterministic 10 ⟨false, false, false, false⟩
    (Or.inl (by decide))

/-- C9 (code_bug): when `window.crypto` is unavailable the code silently
returns `Math.floor(Math.random() * maxExclusive)`.  At `maxExclusive = 2`
with `Math.random() = 0.5` the fallback yields the same caller-visible
outcome, `some 1`, as the secure path does on a stream whose next word is 1:
the two branches are observationally identical to the caller, with no
capability flag, distinct return, or telemetry distinguishing them. -/
theorem secureRandomInt_fallback_silent :
    (secureRandomIntWithFallback false (1 / 2 : ℚ) 1 2 ⟨cexStream, 1⟩).valueOf =
        some 1 ∧
      (secureRandomIntWithFallback true (1 / 2 : ℚ) 1 2 ⟨cexStream, 1⟩).valueOf =
        some 1 ∧
      (secureRandomIntWithFallback false (1 / 2 : ℚ) 1 2 ⟨cexStream, 1⟩).valueOf =
        (secureRandomIntWithFallback true (1 / 2 : ℚ) 1 2 ⟨cexStream, 1⟩).valueOf := by
  have hfb : (secureRandomIntWithFallback false (1 / 2 : ℚ) 1 2
      ⟨cexStream, 1⟩).valueOf = some 1 := by
    simp only [secureRandomIntWithFallback, RandResult.valueOf]
    norm_num [Rat.floor_def']
  have hsec : (secureRandomIntWithFallback true (1 / 2 : ℚ) 1 2
      ⟨cexStream, 1⟩).valueOf = some 1 := rfl
  exact ⟨hfb, hsec, by rw [hfb, hsec]⟩

/-- C2: for every valid request (at least one class selected and length at
least the number of selected pools), over any stream that keeps delivering
draws (modelled by `Good`, which makes the unbounded rejection loops
terminate) and any positive fuel, `generatePassword` succeeds and the
returned password has exactly the requested length. -/
theorem generatePassword_length_exact (fuel len : Nat) (o : Options)
    (f : Nat → Nat) (h1 : buildPools o ≠ []) (h2 : (buildPools o).length ≤ len)
    (hf : 1 ≤ fuel) (hg : Good (90 + len) f) :
    ∃ res st', generatePassword fuel len o ⟨f, 0⟩ = .ok res st' ∧
      res.error = "" ∧ res.password.length = len := by
  obtain ⟨hcne, hcpos, hcle⟩ := (buildPools_combined o).resolve_left h1
  have hplen : 0 < (buildPools o).length := List.length_pos.mpr h1
  have hpoolb : ∀ p, p ∈ buildPools o → 0 < p.length ∧ p.length ≤ 90 + len := by
    intro p hp
    obtain ⟨ha, hb⟩ := buildPools_pool_length hp
    exact ⟨ha, by omega⟩
  obtain ⟨chars, hchars, hcharslen⟩ := pickAll_good hg hf (buildPools o) 0 hpoolb
  obtain ⟨chars2, hchars2, hchars2len⟩ :=
    fillCount_good hg hf hcpos (by omega) (len - chars.length)
      (0 + (buildPools o).length) chars
  have hc2len : chars2.length = len := by omega
  obtain ⟨out, hout, houtlen⟩ :=
    shuffleFrom_good hg hf (chars2.length - 1)
      (0 + (buildPools o).length + (len - chars.length)) chars2 (by omega)
  refine ⟨⟨⟨out⟩, ""⟩,
    ⟨f, 0 + (buildPools o).length + (len - chars.length) + (chars2.length - 1)⟩,
    ?_, rfl, ?_⟩
  · simp only [generatePassword]
    rw [if_neg (by omega), if_neg (by omega)]
    simp only [hchars]
    rw [if_neg hcne]
    simp only [hchars2, shuffleInPlace, hout]
  · show out.length = len
    omega

/-- Witness for C2: a concrete valid request on the all-zero stream. -/
theorem generatePassword_length_exact_witness :
    ∃ res st', generatePassword 1 5 ⟨true, true, true, true⟩ ⟨zeroStream, 0⟩ =
        .ok res st' ∧ res.error = "" ∧ res.password.length = 5 :=
  generatePassword_length_exact 1 5 ⟨true, true, true, true⟩ zeroStream
    (by decide) (by decide) (by decide)
    (fun i => by show 0 % 4294967296 + (90 + 5) < 4294967296; decide)

/-- C3: every character of a returned password for a valid request belongs
to the concatenation of the enabled pools (hence no character from a
disabled class, which is absent from that concatenation, can appear). -/
theorem generatePassword_chars_in_union (fuel len : Nat) (o : Options)
    (st : RandState) (res : GenResult) (st' : RandState)
    (h1 : buildPools o ≠ []) (h2 : (buildPools o).length ≤ len)
    (h : generatePassword fuel len o st = .ok res st') :
    ∀ c, c ∈ res.password.data → c ∈ (String.join (buildPools o)).data := by
  obtain ⟨hcne, -, -⟩ := (buildPools_combined o).resolve_left h1
  have hplen : 0 < (buildPools o).length := List.length_pos.mpr h1
  simp only [generatePassword] at h
  rw [if_neg (by omega), if_neg (by omega)] at h
  cases hp : pickAll fuel (buildPools o) st with
  | ok chars st1 =>
    simp only [hp] at h
    rw [if_neg hcne] at h
    cases hfl : fillCount fuel (String.join (buildPools o))
        (len - chars.length) st1 chars with
    | ok chars2 st2 =>
      simp only [hfl] at h
      cases hsh : shuffleInPlace fuel chars2 st2 with
      | ok chars3 st3 =>
        simp only [hsh] at h; cases h
        intro c hc
        obtain ⟨hlen1, hall1, -⟩ := pickAll_ok (buildPools o) st chars st1 hp
        obtain ⟨hlen2, hall2, -⟩ :=
          fillCount_ok (len - chars.length) st1 chars chars2 st2 hfl
        rw [shuffleInPlace] at hsh
        obtain ⟨-, hin3, -⟩ :=
          shuffleFrom_ok (chars2.length - 1) st2 chars2 chars3 _ (by omega) hsh
        have hc3 : c ∈ chars3 := hc
        rcases hall2 c (hin3 c hc3) with hcc | hcc
        · obtain ⟨p, hpmem, hcp⟩ := hall1 c hcc
          exact mem_data_join hpmem hcp
        · exact hcc
      | thrown msg => simp only [hsh] at h; cases h
      | outOfFuel => simp only [hsh] at h; cases h
    | thrown msg => simp only [hfl] at h; cases h
    | outOfFuel => simp only [hfl] at h; cases h
  | thrown msg => simp only [hp] at h; cases h
  | outOfFuel => simp only [hp] at h; cases h

/-- Witness for C3: a concrete successful run, every character of whose
password lies in the combined pool. -/
theorem generatePassword_chars_in_union_witness :
    ∃ res st', generatePassword 1 4 ⟨true, true, true, true⟩ ⟨zeroStream, 0⟩ =
        .ok res st' ∧
      ∀ c, c ∈ res.password.data →
        c ∈ (String.join (buildPools ⟨true, true, true, true⟩)).data := by
  refine ⟨_, _, rfl, ?_⟩
  exact generatePassword_chars_in_union 1 4 ⟨true, true, true, true⟩
    ⟨zeroStream, 0⟩ _ _ (by decide) (by decide) rfl

/-- C4: for a valid request, every enabled pool contributed at least one
character that survives the fill and the shuffle into the final password. -/
theorem generatePassword_class_coverage (fuel len : Nat) (o : Options)
    (st : RandState) (res : GenResult) (st' : RandState)
    (h1 : buildPools o ≠ []) (h2 : (buildPools o).length ≤ len)
    (h : generatePassword fuel len o st = .ok res st') :
    ∀ p, p ∈ buildPools o → ∃ c, c ∈ res.password.data ∧ c ∈ p.data := by
  obtain ⟨hcne, -, -⟩ := (buildPools_combined o).resolve_left h1
  have hplen : 0 < (buildPools o).length := List.length_pos.mpr h1
  simp only [generatePassword] at h
  rw [if_neg (by omega), if_neg (by omega)] at h
  cases hp : pickAll fuel (buildPools o) st with
  | ok chars st1 =>
    simp only [hp] at h
    rw [if_neg hcne] at h
    cases hfl : fillCount fuel (String.join (buildPools o))
        (len - chars.length) st1 chars with
    | ok chars2 st2 =>
      simp only [hfl] at h
      cases hsh : shuffleInPlace fuel chars2 st2 with
      | ok chars3 st3 =>
        simp only [hsh] at h; cases h
        intro p hpmem
        obtain ⟨hlen1, -, hcov1⟩ := pickAll_ok (buildPools o) st chars st1 hp
        obtain ⟨hlen2, -, hkeep2⟩ :=
          fillCount_ok (len - chars.length) st1 chars chars2 st2 hfl
        rw [shuffleInPlace] at hsh
        obtain ⟨-, -, hout3⟩ :=
          shuffleFrom_ok (chars2.length - 1) st2 chars2 chars3 _ (by omega) hsh
        obtain ⟨c, hc1, hc2⟩ := hcov1 p hpmem
        exact ⟨c, hout3 c (hkeep2 c hc1), hc2⟩
      | thrown msg => simp only [hsh] at h; cases h
      | outOfFuel => simp only [hsh] at h; cases h
    | thrown msg => simp only [hfl] at h; cases h
    | outOfFuel => simp only [hfl] at h; cases h
  | thrown msg => simp only [hp] at h; cases h
  | outOfFuel => simp only [hp] at h; cases h

/-- Witness for C4: a concrete successful run at the minimum length with
three classes: each pool is represented. -/
theorem generatePassword_class_coverage_witness :
    ∃ res st', generatePassword 1 3 ⟨true, true, true, false⟩ ⟨zeroStream, 0⟩ =
        .ok res st' ∧
      ∀ p, p ∈ buildPools ⟨true, true, true, false⟩ →
        ∃ c, c ∈ res.password.data ∧ c ∈ p.data := by
  refine ⟨_, _, rfl, ?_⟩
  exact generatePassword_class_coverage 1 3 ⟨true, true, true, false⟩
    ⟨zeroStream, 0⟩ _ _ (by decide) (by decide) rfl

/-- C6: the code's shuffle coincides with the Fisher–Yates scheme exactly
as the specification words it (fold of draw-`j = uniformInt(i+1)`-and-swap
over `i = length - 1, ..., 1`), and every successful generation's password
is the output of that shuffle applied to the filled buffer. -/
theorem shuffle_is_fisherYates :
    (∀ (fuel : Nat) (arr : List Char) (st : RandState),
        shuffleInPlace fuel arr st = fisherYatesSpec fuel arr st) ∧
      (∀ (fuel len : Nat) (o : Options) (st : RandState) (res : GenResult)
          (st' : RandState),
        generatePassword fuel len o st = .ok res st' → res.error = "" →
        ∃ buf st0, shuffleInPlace fuel buf st0 = .ok res.password.data st') := by
  constructor
  · intro fuel arr st
    rw [shuffleInPlace, fisherYatesSpec, shuffleFrom_eq_foldl]
  · intro fuel len o st res st' h herr
    by_cases hz : (buildPools o).length = 0
    · simp only [generatePassword] at h
      rw [if_pos hz] at h
      cases h
      have herr' : ("Select at least one character option." : String) = "" := herr
      exact absurd herr' (by decide)
    · by_cases hlt : len < (buildPools o).length
      · simp only [generatePassword] at h
        rw [if_neg hz, if_pos hlt] at h
        cases h
        have herr' : ("Length must be at least " ++
            toString (buildPools o).length ++
            " to include each selected type." : String) = "" := herr
        have hl := congrArg String.length herr'
        simp only [String.length_append] at hl
        have e2 : ("Length must be at least " : String).length = 24 := rfl
        have e3 : (" to include each selected type." : String).length = 31 := rfl
        have e0 : ("" : String).length = 0 := rfl
        rw [e2, e3, e0] at hl
        omega
      · simp only [generatePassword] at h
        rw [if_neg hz, if_neg hlt] at h
        cases hp : pickAll fuel (buildPools o) st with
        | ok chars st1 =>
          simp only [hp] at h
          by_cases hcomb : String.join (buildPools o) = ""
          · rw [if_pos hcomb] at h
            cases h
            have herr' :
                ("No characters available with current options." : String) = "" := herr
            exact absurd herr' (by decide)
          · rw [if_neg hcomb] at h
            cases hfl : fillCount fuel (String.join (buildPools o))
                (len - chars.length) st1 chars with
            | ok chars2 st2 =>
              simp only [hfl] at h
              cases hsh : shuffleInPlace fuel chars2 st2 with
              | ok chars3 st3 =>
                simp only [hsh] at h; cases h
                exact ⟨chars2, st2, hsh⟩
              | thrown msg => simp only [hsh] at h; cases h
              | outOfFuel => simp only [hsh] at h; cases h
            | thrown msg => simp only [hfl] at h; cases h
            | outOfFuel => simp only [hfl] at h; cases h
        | thrown msg => simp only [hp] at h; cases h
        | outOfFuel => simp only [hp] at h; cases h

/-- Witness for C6: a concrete successful run whose password is the output
of the in-place shuffle. -/
theorem shuffle_is_fisherYates_witness :
    ∃ res st', generatePassword 1 4 ⟨true, false, true, false⟩ ⟨zeroStream, 0⟩ =
        .ok res st' ∧
      ∃ buf st0, shuffleInPlace 1 buf st0 = .ok res.password.data st' := by
  refine ⟨_, _, rfl, ?_⟩
  exact shuffle_is_fisherYates.2 1 4 ⟨true, false, true, false⟩
    ⟨zeroStream, 0⟩ _ _ rfl rfl

/-- C10: `generatePassword` never throws (so `secureRandomInt` is never
reached with a non-positive bound: after validation every sampled string is
non-empty and every shuffle bound is at least 2), and no run ever returns
the combined-pool-empty message: that branch is dead code, since each class
pool is a fixed non-empty string. -/
theorem generatePassword_no_internal_errors (fuel len : Nat) (o : Options)
    (st : RandState) :
    (∀ msg, generatePassword fuel len o st ≠ .thrown msg) ∧
      (∀ res st', generatePassword fuel len o st = .ok res st' →
        res.error ≠ "No characters available with current options.") := by
  by_cases hz : (buildPools o).length = 0
  · constructor
    · intro msg h
      simp only [generatePassword] at h
      rw [if_pos hz] at h
      cases h
    · intro res st' h
      simp only [generatePassword] at h
      rw [if_pos hz] at h
      cases h
      decide
  · by_cases hlt : len < (buildPools o).length
    · constructor
      · intro msg h
        simp only [generatePassword] at h
        rw [if_neg hz, if_pos hlt] at h
        cases h
      · intro res st' h
        simp only [generatePassword] at h
        rw [if_neg hz, if_pos hlt] at h
        cases h
        intro heq
        have heq' : ("Length must be at least " ++
            toString (buildPools o).length ++
            " to include each selected type." : String) =
          "No characters available with current options." := heq
        have hl := congrArg String.length heq'
        simp only [String.length_append] at hl
        have e2 : ("Length must be at least " : String).length = 24 := rfl
        have e3 : (" to include each selected type." : String).length = 31 := rfl
        have e4 : ("No characters available with current options." : String).length = 45 := rfl
        rw [e2, e3, e4] at hl
        omega
    · have h1 : buildPools o ≠ [] := by
        intro hcontra
        exact hz (by simp [hcontra])
      obtain ⟨hcne, hcpos, -⟩ := (buildPools_combined o).resolve_left h1
      have hpool : ∀ p, p ∈ buildPools o → p.length ≠ 0 := by
        intro p hp
        have := (buildPools_pool_length hp).1
        omega
      constructor
      · intro msg h
        simp only [generatePassword] at h
        rw [if_neg hz, if_neg hlt] at h
        cases hp : pickAll fuel (buildPools o) st with
        | ok chars st1 =>
          simp only [hp] at h
          rw [if_neg hcne] at h
          cases hfl : fillCount fuel (String.join (buildPools o))
              (len - chars.length) st1 chars with
          | ok chars2 st2 =>
            simp only [hfl] at h
            cases hsh : shuffleInPlace fuel chars2 st2 with
            | ok chars3 st3 => simp only [hsh] at h; cases h
            | thrown msg' =>
              rw [shuffleInPlace] at hsh
              exact shuffleFrom_ne_thrown _ _ _ _ hsh
            | outOfFuel => simp only [hsh] at h; cases h
          | thrown msg' => exact fillCount_ne_thrown (by omega) _ _ _ _ hfl
          | outOfFuel => simp only [hfl] at h; cases h
        | thrown msg' => exact pickAll_ne_thrown (buildPools o) st msg' hpool hp
        | outOfFuel => simp only [hp] at h; cases h
      · intro res st' h
        simp only [generatePassword] at h
        rw [if_neg hz, if_neg hlt] at h
        cases hp : pickAll fuel (buildPools o) st with
        | ok chars st1 =>
          simp only [hp] at h
          rw [if_neg hcne] at h
          cases hfl : fillCount fuel (String.join (buildPools o))
              (len - chars.length) st1 chars with
          | ok chars2 st2 =>
            simp only [hfl] at h
            cases hsh : shuffleInPlace fuel chars2 st2 with
            | ok chars3 st3 =>
              simp only [hsh] at h; cases h
              show ("" : String) ≠ "No characters available with current options."
              decide
            | thrown msg' => simp only [hsh] at h; cases h
            | outOfFuel => simp only [hsh] at h; cases h
          | thrown msg' => simp only [hfl] at h; cases h
          | outOfFuel => simp only [hfl] at h; cases h
        | thrown msg' => simp only [hp] at h; cases h
        | outOfFuel => simp only [hp] at h; cases h

/-- Witness for C10: a concrete run whose result does not carry the
dead-branch message. -/
theorem generatePassword_no_internal_errors_witness :
    ∃ res st', generatePassword 1 4 ⟨true, false, false, false⟩ ⟨zeroStream, 0⟩ =
        .ok res st' ∧
      res.error ≠ "No characters available with current options." := by
  refine ⟨_, _, rfl, ?_⟩
  exact (generatePassword_no_internal_errors 1 4 ⟨true, false, false, false⟩
    ⟨zeroStream, 0⟩).2 _ _ rfl

end PasswordGen
